import Mathlib

set_option maxHeartbeats 1000000
set_option maxRecDepth 8000
set_option linter.unusedVariables false

namespace Kilo

/-- Highlight classes, mirroring `enum editorHighlight` in kilo.c. -/
inductive HL where
  | HL_NORMAL
  | HL_COMMENT
  | HL_MLCOMMENT
  | HL_FUNCTION
  | HL_KEYWORD1
  | HL_KEYWORD2
  | HL_STRING
  | HL_NUMBER
  | HL_MATCH
  deriving DecidableEq

open HL

/-- C `isspace` in the default locale: space, tab, newline, vertical tab,
form feed, carriage return. -/
def isSpaceC (c : Char) : Bool :=
  c == ' ' || c == '\t' || c == '\n' || c == '\x0b' || c == '\x0c' || c == '\r'

/-- Function is_separator from kilo.c: whitespace, the NUL byte, or one of the
punctuation characters of the strchr set (comma, dot, parens, plus, minus,
slash, star, equals, tilde, percent, angle brackets, square brackets,
semicolon). -/
def isSeparator (c : Char) : Bool :=
  isSpaceC c || c == '\x00' || (",.()+-/*=~%<>[];".toList.contains c)

/-- C `isdigit` on ASCII. -/
def isDigitC (c : Char) : Bool := '0' ≤ c && c ≤ '9'

/-- C `isalpha` on ASCII (default locale). -/
def isAlphaC (c : Char) : Bool := ('a' ≤ c && c ≤ 'z') || ('A' ≤ c && c ≤ 'Z')

/-- Structure editorSyntax from kilo.c: keyword list, single-line comment
marker, multi-line comment start/end markers, feature flags.  Empty marker
lists model NULL pointers (kilo.c guards each use with a `strlen` check). -/
structure SyntaxProfile where
  keywords : List (List Char)
  scs : List Char
  mcs : List Char
  mce : List Char
  flags : Nat
  deriving DecidableEq

/-- Array C_HL_keywords from kilo.c (a trailing `|` selects the second keyword
class, as in the source). -/
def cKeywords : List (List Char) :=
  (["switch", "if", "while", "for", "break", "continue", "return", "else",
    "default", "union", "case", "#include", "#ifndef", "#define", "#endif",
    "#pragma once", "namespace",
    "struct|", "typedef|", "enum|", "class|", "int|", "long|", "double|",
    "float|", "char|", "unsigned|", "signed|", "void|", "static|", "using|",
    "std"] : List String).map String.toList

/-- The single `HLDB` entry of kilo.c: the C profile, flags
`HL_HIGHLIGHT_NUMBERS | HL_HIGHLIGHT_STRINGS | HL_HIGHLIGHT_FUNCTIONS = 7`. -/
def cProfile : SyntaxProfile :=
  { keywords := cKeywords, scs := "//".toList, mcs := "/*".toList,
    mce := "*/".toList, flags := 7 }

/-- Match test `!strncmp(&render[i], pat, pat.length)` for a NUL-free pattern: every
pattern character matches the corresponding render byte, where reading at
or past the end of the row yields the terminating `'\x00'`. -/
def matchAt (render : List Char) : Nat → List Char → Bool
  | _, [] => true
  | i, p :: ps => render.getD i '\x00' == p && matchAt render (i + 1) ps

/-- Write `memset(&hl[i], v, n)`: overwrite `n` entries starting at `i`
(clipped to the list; every kilo.c call site stays within bounds). -/
def overwriteRange (l : List HL) (i n : Nat) (v : HL) : List HL :=
  l.take i ++ List.replicate (min n (l.length - i)) v ++ l.drop (i + n)

/-- The backward walk of the function-name rule in kilo.c:
`for (j = i; render[j] != ' '; j--) hl[j] = HL_FUNCTION;`.
Returns the marked array and whether the walk ran past index 0 (kilo.c
would then read `render[-1]`, out of bounds); that read is modelled by
stopping at index 0. -/
def funcMark (render : List Char) : List HL → Nat → List HL × Bool
  | hl, j =>
    if render.getD j '\x00' == ' ' then (hl, false)
    else
      match j with
      | 0 => (hl.set 0 HL_FUNCTION, true)
      | j' + 1 => funcMark render (hl.set (j' + 1) HL_FUNCTION) j'

/-- The keyword loop of kilo.c: first keyword (in list order) that matches
at `i` (a trailing `'|'` is stripped and selects keyword class 2) and is
followed by a separator.  Returns the matched length and the kw2 flag. -/
def findKeyword (render : List Char) (i : Nat) : List (List Char) → Option (Nat × Bool)
  | [] => none
  | k :: rest =>
    let kw2 := k.getLast? == some '|'
    let kk := if kw2 then k.dropLast else k
    if matchAt render i kk && isSeparator (render.getD (i + kk.length) '\x00') then
      some (kk.length, kw2)
    else findKeyword render i rest

/-- The loop state of the `editorUpdateSyntax` scan: highlight array, scan
position, `prev_sep`, `in_string` (the open quote, `'\x00'` when none),
`in_comment`, and `oob`, which records whether any read of `render` used an
index outside `[0, rsize]`. -/
structure ScanState where
  hl : List HL
  i : Nat
  prev_sep : Bool
  in_string : Char
  in_comment : Bool
  oob : Bool
  deriving DecidableEq

/-- One iteration of the `editorUpdateSyntax` while-loop (kilo.c lines
343-433), for a present profile; only entered while `i < rsize`.
kilo.c reads `render[i-1]` unconditionally, so at `i = 0` it reads index
-1: that read is modelled as `'\x00'` and recorded in `oob`.  kilo.c tests
`E.syntax->flags && HL_HIGHLIGHT_*` (logical and), so each feature is
enabled exactly when `flags ≠ 0`. -/
def scanStep (syn : SyntaxProfile) (render : List Char) (st : ScanState) : ScanState :=
  let i := st.i
  let c := render.getD i '\x00'
  let prev_c := if i = 0 then '\x00' else render.getD (i - 1) '\x00'
  let oob0 := st.oob || i == 0
  let prev_hl := if 0 < i then st.hl.getD (i - 1) HL_NORMAL else HL_NORMAL
  let fr :=
    if syn.flags != 0 && st.in_string == '\x00' && isAlphaC c
        && render.getD (i + 1) '\x00' == '(' then
      funcMark render st.hl i
    else (st.hl, false)
  let hl1 := fr.1
  let oob1 := oob0 || fr.2
  let hl2 :=
    if syn.scs.length != 0 && st.in_string == '\x00' && !st.in_comment
        && matchAt render i syn.scs then
      hl1.take i ++ List.replicate (render.length - i) HL_COMMENT
    else hl1
  if syn.mcs.length != 0 && syn.mce.length != 0 && st.in_string == '\x00'
      && st.in_comment then
    let hl3 := hl2.set i HL_COMMENT
    if matchAt render i syn.mce then
      { hl := overwriteRange hl3 i syn.mce.length HL_MLCOMMENT
        i := i + syn.mce.length
        prev_sep := true
        in_string := st.in_string
        in_comment := false
        oob := oob1 }
    else
      { st with hl := hl3, i := i + 1, oob := oob1 }
  else if syn.mcs.length != 0 && syn.mce.length != 0 && st.in_string == '\x00'
      && matchAt render i syn.mcs then
    { st with
      hl := overwriteRange hl2 i syn.mcs.length HL_MLCOMMENT
      i := i + syn.mcs.length
      in_comment := true
      oob := oob1 }
  else if syn.flags != 0 && st.in_string != '\x00' then
    let hl3 := hl2.set i HL_STRING
    if c == '\\' && i + 1 < render.length then
      { st with hl := hl3.set (i + 1) HL_STRING, i := i + 2, oob := oob1 }
    else
      { st with
        hl := hl3
        i := i + 1
        prev_sep := true
        oob := oob1
        in_string := if c == st.in_string then '\x00' else st.in_string }
  else if syn.flags != 0 && (c == Char.ofNat 34 || c == Char.ofNat 39) then
    { st with hl := hl2.set i HL_STRING, i := i + 1, in_string := c, oob := oob1 }
  else if syn.flags != 0 &&
      ((isDigitC c && (st.prev_sep || prev_hl == HL_NUMBER)) ||
        (c == '.' && prev_hl == HL_NUMBER) ||
        ((c == 'x' || c == 'b') && prev_c == '0')) then
    { st with hl := hl2.set i HL_NUMBER, i := i + 1, prev_sep := false, oob := oob1 }
  else if st.prev_sep then
    match findKeyword render i syn.keywords with
    | some kl =>
      { st with
        hl := overwriteRange hl2 i kl.1 (if kl.2 then HL_KEYWORD2 else HL_KEYWORD1)
        i := i + kl.1
        prev_sep := false
        oob := oob1 }
    | none =>
      { st with hl := hl2, i := i + 1, prev_sep := isSeparator c, oob := oob1 }
  else
    { st with hl := hl2, i := i + 1, prev_sep := isSeparator c, oob := oob1 }

/-- The `while (i < row->rsize)` loop, fuelled.  Every iteration of kilo.c
advances `i` by at least one (for a profile without degenerate empty
keywords), so `rsize + 1` fuel runs the loop to completion. -/
def scanLoop (syn : SyntaxProfile) (render : List Char) : Nat → ScanState → ScanState
  | 0, st => st
  | fuel + 1, st =>
    if st.i < render.length then scanLoop syn render fuel (scanStep syn render st)
    else st

/-- The full per-row pass of `editorUpdateSyntax` for a present profile:
`hl` is cleared to `HL_NORMAL`, then the row is scanned with `in_comment`
seeded from the predecessor row's `hl_open_comment`. -/
def updateSyntaxScan (syn : SyntaxProfile) (render : List Char) (seed : Bool) : ScanState :=
  scanLoop syn render (render.length + 1)
    { hl := List.replicate render.length HL_NORMAL, i := 0, prev_sep := true,
      in_string := '\x00', in_comment := seed, oob := false }

/-- The per-row highlight array computed by `editorUpdateSyntax`. -/
def rowHl (syn : SyntaxProfile) (render : List Char) (seed : Bool) : List HL :=
  (updateSyntaxScan syn render seed).hl

/-- The `in_comment` value at the end of the row, stored into
`hl_open_comment` by `editorUpdateSyntax`. -/
def rowFlag (syn : SyntaxProfile) (render : List Char) (seed : Bool) : Bool :=
  (updateSyntaxScan syn render seed).in_comment

/-- Whether the per-row pass performed any out-of-bounds read of `render`. -/
def rowOob (syn : SyntaxProfile) (render : List Char) (seed : Bool) : Bool :=
  (updateSyntaxScan syn render seed).oob

/-- Structure erow from kilo.c (sizes are implicit as list lengths). -/
structure ERow where
  idx : Nat
  chars : List Char
  render : List Char
  hl : List HL
  hl_open_comment : Bool
  deriving DecidableEq

instance : Inhabited ERow := ⟨⟨0, [], [], [], false⟩⟩

/-- The global editor state restricted to the fields the claims touch. -/
structure EState where
  rows : List ERow
  dirty : Nat
  profile : Option SyntaxProfile
  tab_stop : Nat
  deriving DecidableEq

/-- The render derivation of `editorUpdateRow`: a tab emits one space and
then spaces up to the next multiple of the tab stop; other characters are
copied. -/
def renderOf (tab_stop : Nat) (chars : List Char) : List Char :=
  chars.foldl
    (fun acc c =>
      if c == '\t' then acc ++ List.replicate (tab_stop - acc.length % tab_stop) ' '
      else acc ++ [c])
    []

/-- Replace the element at position `j` (no-op when out of range). -/
def listModify (l : List α) (j : Nat) (f : α → α) : List α :=
  l.take j ++ (match l.drop j with
    | [] => []
    | x :: xs => f x :: xs)

/-- The `in_comment` seed read by `editorUpdateSyntax`:
`row->idx > 0 && E.row[row->idx-1].hl_open_comment` (with `idx` equal to
the row's position, the invariant kilo.c maintains). -/
def flagBefore (rows : List ERow) (j : Nat) : Bool :=
  if j = 0 then false else (rows.getD (j - 1) default).hl_open_comment

/-- Re-running the highlighter on every row from scratch, threading the
open-comment state from `seed` (false at row 0). -/
def scratchFrom (syn : SyntaxProfile) : List ERow → Bool → List ERow
  | [], _ => []
  | r :: rs, seed =>
    { r with hl := rowHl syn r.render seed,
             hl_open_comment := rowFlag syn r.render seed } ::
      scratchFrom syn rs (rowFlag syn r.render seed)

/-- The open-comment state after scanning a block of rows from `seed`. -/
def scratchFlag (syn : SyntaxProfile) : List ERow → Bool → Bool
  | [], s => s
  | r :: rs, s => scratchFlag syn rs (rowFlag syn r.render s)

/-- The incremental propagation of `editorUpdateSyntax`: update the row;
if its `hl_open_comment` changed, recurse into the next row, else stop. -/
def cascadeFrom (syn : SyntaxProfile) : List ERow → Bool → List ERow
  | [], _ => []
  | r :: rs, seed =>
    if rowFlag syn r.render seed = r.hl_open_comment then
      { r with hl := rowHl syn r.render seed,
               hl_open_comment := rowFlag syn r.render seed } :: rs
    else
      { r with hl := rowHl syn r.render seed,
               hl_open_comment := rowFlag syn r.render seed } ::
        cascadeFrom syn rs (rowFlag syn r.render seed)

/-- Call editorUpdateSyntax on row j at buffer level: rows before `j` are
untouched; from `j` the cascade runs with the seed read from the stored
predecessor flag. -/
def updateSyntaxFrom (syn : SyntaxProfile) (rows : List ERow) (j : Nat) : List ERow :=
  rows.take j ++ cascadeFrom syn (rows.drop j) (flagBefore rows j)

/-- Function editorUpdateRow on row j: re-derive `render` from `chars`, then run
`editorUpdateSyntax` on the row.  With no active profile the latter only
clears `hl` to `HL_NORMAL` and returns (the stored `hl_open_comment` is
kept and no cascade happens). -/
def updateRowAt (synO : Option SyntaxProfile) (t : Nat) (rows : List ERow) (j : Nat) :
    List ERow :=
  let rows1 := listModify rows j (fun r => { r with render := renderOf t r.chars })
  match synO with
  | none =>
      listModify rows1 j (fun r => { r with hl := List.replicate r.render.length HL_NORMAL })
  | some syn => updateSyntaxFrom syn rows1 j

/-- A row-content edit applied through the row-update path
(`editorRowInsertChar` / `editorRowDelChar` shape): replace row `j`'s raw
chars, then `editorUpdateRow` it. -/
def applyEdit (syn : SyntaxProfile) (t : Nat) (rows : List ERow) (e : Nat × List Char) :
    List ERow :=
  updateRowAt (some syn) t (listModify rows e.1 (fun r => { r with chars := e.2 })) e.1

/-- A sequence of edits through the row-update path. -/
def applyEdits (syn : SyntaxProfile) (t : Nat) : List ERow → List (Nat × List Char) → List ERow
  | rows, [] => rows
  | rows, e :: es => applyEdits syn t (applyEdit syn t rows e) es

/-- Function editorRowCxToRx from kilo.c: scan raw characters `[0, cx)`; a tab
adds `(tab_stop - 1) - rx % tab_stop` then 1; other characters add 1. -/
def editorRowCxToRx (t : Nat) (chars : List Char) (cx : Nat) : Nat :=
  (chars.take cx).foldl
    (fun rx c => if c == '\t' then rx + ((t - 1) - rx % t) + 1 else rx + 1) 0

/-- Function editorRowInsertChar at the raw-content level.  kilo.c clamps `at`
against `row->rsize` (the rendered size, not the raw size): an `at` that
lands strictly beyond the raw size makes
`memmove(&chars[at+1], &chars[at], size-at+1)` move a huge (negative cast
to size_t) byte count — undefined behaviour, modelled as `none`.
`rsize` is recomputed from `chars`, the invariant kilo.c maintains. -/
def rowInsertCharChars (t : Nat) (chars : List Char) (a : Int) (c : Char) :
    Option (List Char) :=
  let size : Int := chars.length
  let rsize : Int := (renderOf t chars).length
  let a' : Int := if a < 0 ∨ a > rsize then rsize else a
  if a' ≤ size then some (chars.take a'.toNat ++ c :: chars.drop a'.toNat) else none

/-- Function editorRowInsertChar at buffer level: insert into the
raw content, re-run `editorUpdateRow` on the row, increment `dirty`. -/
def editorRowInsertChar (st : EState) (j : Nat) (a : Int) (c : Char) : Option EState :=
  match rowInsertCharChars st.tab_stop ((st.rows.getD j default).chars) a c with
  | none => none
  | some cs =>
      some { st with
             rows := updateRowAt st.profile st.tab_stop
               (listModify st.rows j (fun r => { r with chars := cs })) j
             dirty := st.dirty + 1 }

/-- Function editorInsertRow from kilo.c: out-of-range `at` is a no-op
(`if (at < 0 || at > E.numrows) return;`).  Otherwise the new row is
spliced in, the `idx` of every row now positioned after it is incremented,
and `editorUpdateRow` runs on the new row.  kilo.c never initializes the
new row's `hl_open_comment`; `g` is that indeterminate initial value. -/
def editorInsertRow (g : Bool) (st : EState) (a : Int) (s : List Char) : EState :=
  if a < 0 ∨ a > (st.rows.length : Int) then st
  else
    let n := a.toNat
    let newRow : ERow := { idx := n, chars := s, render := [], hl := [], hl_open_comment := g }
    let rows1 := st.rows.take n ++ newRow :: st.rows.drop n
    let rows2 := rows1.take (n + 1) ++ (rows1.drop (n + 1)).map (fun r => { r with idx := r.idx + 1 })
    { st with rows := updateRowAt st.profile st.tab_stop rows2 n, dirty := st.dirty + 1 }

/-- Function editorRowsToString: every row's raw chars followed by a newline,
including after the last row. -/
def editorRowsToString (rows : List (List Char)) : List Char :=
  rows.foldr (fun r acc => r ++ '\n' :: acc) []

/-- The per-line stripping of `editorOpen`: drop trailing `'\n'` and
`'\r'` characters. -/
def stripTrailing (line : List Char) : List Char :=
  (line.reverse.dropWhile (fun c => c == '\n' || c == '\r')).reverse

/-- Line segmentation of getline: lines are maximal chunks ending with `'\n'`
(the newline included), a final chunk without one is still a line, an
empty input yields no lines. -/
def splitLinesAux (acc : List Char) : List Char → List (List Char)
  | [] => if acc.isEmpty then [] else [acc.reverse]
  | c :: cs =>
    if c == '\n' then (acc.reverse ++ ['\n']) :: splitLinesAux [] cs
    else splitLinesAux (c :: acc) cs

def splitLines (s : List Char) : List (List Char) := splitLinesAux [] s

/-- The row contents produced by `editorOpen` reading byte sequence `s`:
one row per `getline` line, trailing newline/carriage-return stripped. -/
def editorOpenRows (s : List Char) : List (List Char) :=
  (splitLines s).map stripTrailing

/-- Is `pre` a leading segment of `l`? (Bool version, for `strstr`.) -/
def listPrefixB : List Char → List Char → Bool
  | [], _ => true
  | _ :: _, [] => false
  | n :: ns, h :: hs => n == h && listPrefixB ns hs

/-- Containment test `strstr(hay, needle) != NULL`: some suffix of `hay` starts with
`needle`. -/
def strstrB (needle : List Char) : List Char → Bool
  | [] => listPrefixB needle []
  | c :: hs => listPrefixB needle (c :: hs) || strstrB needle hs

/-- The index update of the `editorFindCallback` search loop:
`current += direction; if (current == -1) current = numrows - 1;
else if (current == numrows) current = 0;`. -/
def findStep (n cur dir : Int) : Int :=
  let c := cur + dir
  if c = -1 then n - 1 else if c = n then 0 else c

/-- The `for (i = 0; i < numrows; i++)` search loop of
`editorFindCallback`, over rendered row contents. -/
def findLoop (rows : List (List Char)) (q : List Char) (dir : Int) :
    Nat → Int → Option Int
  | 0, _ => none
  | fuel + 1, cur =>
    let c := findStep rows.length cur dir
    if strstrB q (rows.getD c.toNat []) then some c
    else findLoop rows q dir fuel c

/-- One search advance of `editorFindCallback`: with no prior match the
direction is forced forward, then the loop scans `numrows` rows starting
just past `last_match`. -/
def editorFindNext (rows : List (List Char)) (q : List Char) (last_match dir : Int) :
    Option Int :=
  let d := if last_match = -1 then 1 else dir
  findLoop rows q d rows.length last_match

/-- Key codes from `enum editorKey` in kilo.c. -/
def BACKSPACE : Nat := 127

def ARROW_LEFT : Nat := 1000

def ARROW_RIGHT : Nat := 1001

def ARROW_UP : Nat := 1002

def ARROW_DOWN : Nat := 1003

def DEL_KEY : Nat := 1004

def HOME_KEY : Nat := 1005

def END_KEY : Nat := 1006

def PAGE_UP : Nat := 1007

def PAGE_DOWN : Nat := 1008

/-- The escape-sequence branch of `editorReadKey` (kilo.c lines 240-277):
the list holds the bytes that arrive before the read timeout; running out
of bytes models `read(...) != 1`. -/
def editorReadKeyEsc : List Nat → Nat
  | [] => 27
  | [_] => 27
  | s0 :: s1 :: rest =>
    if s0 == 91 then
      if 48 ≤ s1 ∧ s1 ≤ 57 then
        match rest with
        | [] => 27
        | s2 :: _ =>
          if s2 == 126 then
            if s1 == 49 then HOME_KEY
            else if s1 == 51 then DEL_KEY
            else if s1 == 52 then END_KEY
            else if s1 == 53 then PAGE_UP
            else if s1 == 54 then PAGE_DOWN
            else if s1 == 55 then HOME_KEY
            else if s1 == 56 then END_KEY
            else 27
          else 27
      else
        if s1 == 65 then ARROW_UP
        else if s1 == 66 then ARROW_DOWN
        else if s1 == 67 then ARROW_RIGHT
        else if s1 == 68 then ARROW_LEFT
        else if s1 == 72 then HOME_KEY
        else if s1 == 70 then END_KEY
        else 27
    else if s0 == 79 then
      if s1 == 72 then HOME_KEY
      else if s1 == 70 then END_KEY
      else 27
    else 27

/-- Function editorReadKey on a first byte `c` with `rest` the bytes available
after it (non-escape bytes are returned as-is). -/
def editorReadKey (c : Nat) (rest : List Nat) : Nat :=
  if c == 27 then editorReadKeyEsc rest else c

/-- The byte sequences after `0x1b` that kilo.c maps to a key other than
plain escape. -/
def recognizedEsc : List Nat → Bool
  | s0 :: s1 :: rest =>
    if s0 == 91 then
      if 48 ≤ s1 ∧ s1 ≤ 57 then
        match rest with
        | [] => false
        | s2 :: _ =>
          s2 == 126 && (s1 == 49 || s1 == 51 || s1 == 52 || s1 == 53 ||
            s1 == 54 || s1 == 55 || s1 == 56)
      else
        s1 == 65 || s1 == 66 || s1 == 67 || s1 == 68 || s1 == 72 || s1 == 70
    else if s0 == 79 then s1 == 72 || s1 == 70
    else false
  | _ => false

/-- A freshly loaded row at position `i` with content `s` (tab stop 4, the
kilo.c default). -/
def mkRow (i : Nat) (s : String) : ERow :=
  { idx := i, chars := s.toList, render := renderOf 4 s.toList, hl := [],
    hl_open_comment := false }

/-- The concrete buffer of the C2 scenario, highlighted from scratch. -/
def c2Rows : List ERow :=
  scratchFrom cProfile
    [mkRow 0 "int x = 1; // note", mkRow 1 "/* block",
     mkRow 2 "still in block", mkRow 3 "end */ done"] false

/-- A small two-row consistent buffer used to witness C1. -/
def c1DemoRows : List ERow :=
  scratchFrom cProfile [mkRow 0 "/*", mkRow 1 "a*/b"] false

/-- A one-row state with no active profile, for the C6/C7 witnesses. -/
def demoState1 : EState :=
  { rows := [{ idx := 0, chars := ['a', 'b'], render := ['a', 'b'],
               hl := [HL_NORMAL, HL_NORMAL], hl_open_comment := false }],
    dirty := 0, profile := none, tab_stop := 4 }

/-! Generic list lemmas used by the buffer proofs. -/

lemma kGetD_append_lt (l l' : List α) (d : α) :
    ∀ n, n < l.length → (l ++ l').getD n d = l.getD n d := by
  induction l with
  | nil => intro n hn; simp at hn
  | cons x xs ih =>
    intro n hn
    cases n with
    | zero => rfl
    | succ m => exact ih m (by simpa using hn)

lemma kGetD_append_ge (l l' : List α) (d : α) :
    ∀ n, l.length ≤ n → (l ++ l').getD n d = l'.getD (n - l.length) d := by
  induction l with
  | nil => intro n _; simp
  | cons x xs ih =>
    intro n hn
    cases n with
    | zero => simp at hn
    | succ m => simpa using ih m (by simpa using hn)

lemma kGetD_take (l : List α) (d : α) :
    ∀ n i, i < n → (l.take n).getD i d = l.getD i d := by
  induction l with
  | nil => intro n i _; simp
  | cons x xs ih =>
    intro n i hi
    cases n with
    | zero => simp at hi
    | succ m =>
      cases i with
      | zero => rfl
      | succ k => exact ih m k (by omega)

lemma kGetD_drop (l : List α) (d : α) :
    ∀ n i, (l.drop n).getD i d = l.getD (n + i) d := by
  induction l with
  | nil => intro n i; simp
  | cons x xs ih =>
    intro n i
    cases n with
    | zero => simp
    | succ m => simp only [List.drop_succ_cons, List.getD_cons_succ, Nat.succ_add, ih m i]

lemma kGetD_map (f : α → β) (d : β) (d' : α) :
    ∀ (l : List α) (m : Nat), m < l.length → (l.map f).getD m d = f (l.getD m d') := by
  intro l
  induction l with
  | nil => intro m hm; simp at hm
  | cons x xs ih =>
    intro m hm
    cases m with
    | zero => rfl
    | succ k => exact ih k (by simpa using hm)

lemma kListModify_length (l : List α) (j : Nat) (f : α → α) :
    (listModify l j f).length = l.length := by
  unfold listModify
  rcases h : l.drop j with _ | ⟨x, xs⟩
  · have hj : l.length ≤ j := by
      have := congrArg List.length h
      simp [List.length_drop] at this
      omega
    simp [List.length_take]
    omega
  · have := congrArg List.length h
    simp [List.length_drop] at this
    simp [List.length_take]
    omega

lemma kListModify_of_drop (l : List α) (j : Nat) (f : α → α) {r : α} {rest : List α}
    (h : l.drop j = r :: rest) : listModify l j f = l.take j ++ f r :: rest := by
  unfold listModify
  rw [h]

lemma kListModify_of_drop_nil (l : List α) (j : Nat) (f : α → α)
    (h : l.drop j = []) : listModify l j f = l := by
  unfold listModify
  rw [h]
  have := List.take_append_drop j l
  rw [h] at this
  simpa using this

lemma kGetD_last (d : α) : ∀ (l : List α) (h : l ≠ []), l.getD (l.length - 1) d = l.getLast h := by
  intro l
  induction l with
  | nil => intro h; exact absurd rfl h
  | cons x xs ih =>
    intro h
    cases xs with
    | nil => rfl
    | cons y ys =>
      rw [List.getLast_cons (by simp)]
      simpa [List.length_cons] using ih (by simp)

/-! Lemmas about the highlight cascade and the from-scratch recomputation. -/

lemma scratchFrom_length (syn : SyntaxProfile) :
    ∀ (l : List ERow) (s : Bool), (scratchFrom syn l s).length = l.length := by
  intro l
  induction l with
  | nil => intro s; rfl
  | cons r rs ih => intro s; simp [scratchFrom, ih]

lemma cascadeFrom_length (syn : SyntaxProfile) :
    ∀ (l : List ERow) (s : Bool), (cascadeFrom syn l s).length = l.length := by
  intro l
  induction l with
  | nil => intro s; rfl
  | cons r rs ih =>
    intro s
    by_cases h : rowFlag syn r.render s = r.hl_open_comment
    · simp [cascadeFrom, h]
    · simp [cascadeFrom, h, ih]

lemma scratchFrom_append (syn : SyntaxProfile) :
    ∀ (p q : List ERow) (s : Bool),
      scratchFrom syn (p ++ q) s = scratchFrom syn p s ++ scratchFrom syn q (scratchFlag syn p s) := by
  intro p
  induction p with
  | nil => intro q s; rfl
  | cons r rs ih =>
    intro q s
    simp only [List.cons_append, scratchFrom, scratchFlag, List.append_eq]
    rw [ih]

lemma scratchFrom_scratchFrom (syn : SyntaxProfile) :
    ∀ (l : List ERow) (a b : Bool),
      scratchFrom syn (scratchFrom syn l a) b = scratchFrom syn l b := by
  intro l
  induction l with
  | nil => intro a b; rfl
  | cons r rs ih =>
    intro a b
    simp only [scratchFrom]
    rw [ih]

lemma cascadeFrom_scratchFrom (syn : SyntaxProfile) :
    ∀ (l : List ERow) (a b : Bool),
      cascadeFrom syn (scratchFrom syn l a) b = scratchFrom syn l b := by
  intro l
  induction l with
  | nil => intro a b; rfl
  | cons r rs ih =>
    intro a b
    simp only [scratchFrom, cascadeFrom]
    by_cases hf : rowFlag syn r.render b = rowFlag syn r.render a
    · rw [if_pos hf, hf]
    · rw [if_neg hf, ih]

lemma cascadeFrom_cons_scratch (syn : SyntaxProfile) (r : ERow) (rs : List ERow) (b : Bool)
    (h : scratchFrom syn rs r.hl_open_comment = rs) :
    cascadeFrom syn (r :: rs) b = scratchFrom syn (r :: rs) b := by
  simp only [cascadeFrom, scratchFrom]
  by_cases hf : rowFlag syn r.render b = r.hl_open_comment
  · rw [if_pos hf, hf, h]
  · rw [if_neg hf]
    rw [← h, cascadeFrom_scratchFrom, scratchFrom_scratchFrom]

lemma scratchFlag_of_fixed (syn : SyntaxProfile) :
    ∀ (p : List ERow) (s : Bool), scratchFrom syn p s = p →
      ∀ hp : p ≠ [], scratchFlag syn p s = (p.getLast hp).hl_open_comment := by
  intro p
  induction p with
  | nil => intro s _ hp; exact absurd rfl hp
  | cons r rs ih =>
    intro s hfix hp
    have hcons := hfix
    simp only [scratchFrom] at hcons
    have hpair := List.cons_eq_cons.mp hcons
    have hhead := hpair.1
    have htail := hpair.2
    have hflag : rowFlag syn r.render s = r.hl_open_comment :=
      congrArg ERow.hl_open_comment hhead
    simp only [scratchFlag]
    cases rs with
    | nil => simpa [scratchFlag, List.getLast] using hflag
    | cons y ys =>
      rw [List.getLast_cons (by simp)]
      exact ih (rowFlag syn r.render s) htail (by simp)

lemma consistent_applyEdit (syn : SyntaxProfile) (t : Nat) (rows : List ERow)
    (j : Nat) (cs : List Char) (h : scratchFrom syn rows false = rows) :
    scratchFrom syn (applyEdit syn t rows (j, cs)) false = applyEdit syn t rows (j, cs) := by
  rcases hd : rows.drop j with _ | ⟨r, rest⟩
  · -- j is past the end: the whole edit is a no-op
    have h1 : listModify rows j (fun r => { r with chars := cs }) = rows :=
      kListModify_of_drop_nil _ _ _ hd
    have h2 : listModify rows j (fun r => { r with render := renderOf t r.chars }) = rows :=
      kListModify_of_drop_nil _ _ _ hd
    simp only [applyEdit, updateRowAt, h1, h2, updateSyntaxFrom, hd, cascadeFrom]
    have htk := List.take_append_drop j rows
    rw [hd] at htk
    simp only [List.append_nil] at htk ⊢
    rw [htk]
    exact h
  · have hj : j < rows.length := by
      have := congrArg List.length hd
      simp [List.length_drop] at this
      omega
    have hlen_take : (rows.take j).length = j := by
      simp [List.length_take]
      omega
    -- the three stages of the edit
    set r2 : ERow := { r with chars := cs, render := renderOf t cs } with hr2
    have hrows1 : listModify rows j (fun x => { x with chars := cs })
        = rows.take j ++ ({ r with chars := cs } : ERow) :: rest :=
      kListModify_of_drop _ _ _ hd
    have hdrop1 : (rows.take j ++ ({ r with chars := cs } : ERow) :: rest).drop j
        = ({ r with chars := cs } : ERow) :: rest := List.drop_left' hlen_take
    have hrows2 : listModify (rows.take j ++ ({ r with chars := cs } : ERow) :: rest) j
        (fun x => { x with render := renderOf t x.chars })
        = rows.take j ++ r2 :: rest := by
      rw [kListModify_of_drop _ _ _ hdrop1, List.take_left' hlen_take]
    have htake2 : (rows.take j ++ r2 :: rest).take j = rows.take j := List.take_left' hlen_take
    have hdrop2 : (rows.take j ++ r2 :: rest).drop j = r2 :: rest := List.drop_left' hlen_take
    -- decompose the consistency hypothesis along the split
    have hsum : rows.take j ++ r :: rest = rows := by
      rw [← hd, List.take_append_drop]
    have hsplit := scratchFrom_append syn (rows.take j) (r :: rest) false
    rw [hsum, h] at hsplit
    have heq : scratchFrom syn (rows.take j) false
        ++ scratchFrom syn (r :: rest) (scratchFlag syn (rows.take j) false)
        = rows.take j ++ r :: rest := hsplit.symm.trans hsum.symm
    have hinj := List.append_inj heq (scratchFrom_length syn (rows.take j) false)
    have hpre : scratchFrom syn (rows.take j) false = rows.take j := hinj.1
    have hsuf : scratchFrom syn (r :: rest) (scratchFlag syn (rows.take j) false)
        = r :: rest := hinj.2
    set c0 : Bool := scratchFlag syn (rows.take j) false with hc0
    have hconssuf := hsuf
    simp only [scratchFrom] at hconssuf
    have hpair := List.cons_eq_cons.mp hconssuf
    have hflag : rowFlag syn r.render c0 = r.hl_open_comment :=
      congrArg ERow.hl_open_comment hpair.1
    have htail' : scratchFrom syn rest r.hl_open_comment = rest := by
      rw [← hflag]; exact hpair.2
    -- the seed read from the stored predecessor flag equals c0
    have hseed : flagBefore (rows.take j ++ r2 :: rest) j = c0 := by
      unfold flagBefore
      by_cases hj0 : j = 0
      · subst hj0
        simp [hc0, scratchFlag]
      · rw [if_neg hj0]
        have hne : rows.take j ≠ [] := by
          intro hnil
          rw [hnil] at hlen_take
          simp at hlen_take
          omega
        have h1 : (rows.take j ++ r2 :: rest).getD (j - 1) default
            = (rows.take j).getD (j - 1) default := by
          apply kGetD_append_lt
          omega
        rw [h1]
        have h2 := kGetD_last default (rows.take j) hne
        rw [hlen_take] at h2
        rw [h2]
        exact (scratchFlag_of_fixed syn (rows.take j) false hpre hne).symm
    -- the cascade equals a scratch run on the suffix
    have hcasc : cascadeFrom syn (r2 :: rest) c0 = scratchFrom syn (r2 :: rest) c0 := by
      apply cascadeFrom_cons_scratch
      show scratchFrom syn rest r2.hl_open_comment = rest
      exact htail'
    -- assemble
    show scratchFrom syn (applyEdit syn t rows (j, cs)) false = applyEdit syn t rows (j, cs)
    have happly : applyEdit syn t rows (j, cs)
        = rows.take j ++ scratchFrom syn (r2 :: rest) c0 := by
      simp only [applyEdit, updateRowAt, hrows1, hrows2, updateSyntaxFrom, htake2, hdrop2,
        hseed, hcasc]
    rw [happly, scratchFrom_append, hpre, ← hc0, scratchFrom_scratchFrom]

/-- C1: after any sequence of row edits applied through the row-update path
(each re-running the per-row highlighter and propagating to the next row
only while `hl_open_comment` changed), every row's per-character highlight
classification equals a from-scratch re-run of the highlighter over all
rows from row 0. -/
theorem c1_cascade_convergence (syn : SyntaxProfile) (t : Nat) (rows : List ERow)
    (edits : List (Nat × List Char)) (h : scratchFrom syn rows false = rows) :
    scratchFrom syn (applyEdits syn t rows edits) false = applyEdits syn t rows edits := by
  induction edits generalizing rows with
  | nil => exact h
  | cons e es ih =>
    exact ih (applyEdit syn t rows e)
      (consistent_applyEdit syn t rows e.1 e.2 h)

/-- Witness for C1 at a concrete two-row buffer under the C profile: the
buffer is consistent, and after editing the block-comment opener away the
propagated result is still the from-scratch result. -/
theorem c1_cascade_convergence_witness :
    scratchFrom cProfile c1DemoRows false = c1DemoRows ∧
      scratchFrom cProfile (applyEdits cProfile 4 c1DemoRows [(0, [' '])]) false
        = applyEdits cProfile 4 c1DemoRows [(0, [' '])] :=
  ⟨by decide, c1_cascade_convergence cProfile 4 c1DemoRows [(0, [' '])] (by decide)⟩

/-- C2 fails as stated: in the concrete scenario buffer, the interior of
the block comment is classified `HL_COMMENT`, not `HL_MLCOMMENT` (kilo.c
line 362 writes `HL_COMMENT` for characters inside an open block comment);
e.g. character 2 of row 1 (`" block"` after the `"/*"` marker). -/
theorem c2_counterexample :
    (c2Rows.getD 1 default).hl.getD 2 HL_NORMAL = HL_COMMENT ∧
      HL_COMMENT ≠ HL_MLCOMMENT := by decide

/-- C2 amended: for the buffer of the scenario under the C profile, row 0
is `Comment` from the `//` onward; row 1 carries `BlockComment` exactly on
the `"/*"` delimiter and `Comment` on the remaining characters; row 2 is
entirely `Comment` (inherited open state); row 3 is `Comment` on
`"end "`, `BlockComment` on the `"*/"` delimiter, and `Normal` on
`" done"`. -/
theorem c2_amended_highlights :
    (c2Rows.getD 0 default).hl.drop 11 = List.replicate 7 HL_COMMENT ∧
    (c2Rows.getD 1 default).hl
      = HL_MLCOMMENT :: HL_MLCOMMENT :: List.replicate 6 HL_COMMENT ∧
    (c2Rows.getD 2 default).hl = List.replicate 14 HL_COMMENT ∧
    (c2Rows.getD 3 default).hl
      = List.replicate 4 HL_COMMENT
        ++ HL_MLCOMMENT :: HL_MLCOMMENT :: List.replicate 5 HL_NORMAL := by decide

/-- C3 evaluated on the code at the failing input: on the row `//"` the
single-line marker matches at position 0 outside string and comment, yet
scanning does not stop (kilo.c has no `break` after the `memset`), and the
string rule later reclassifies the quote at position 2 as `HL_STRING`, so
the remainder of the row is not all `HL_COMMENT`. -/
theorem c3_code_evaluation :
    matchAt ("//\"".toList) 0 cProfile.scs = true ∧
    rowHl cProfile ("//\"".toList) false = [HL_COMMENT, HL_COMMENT, HL_STRING] ∧
    HL_STRING ≠ HL_COMMENT := by decide

/-- C10 evaluated on the code at the failing inputs: scanning any
non-empty row reads `render[i-1]` at scan position `i = 0` (index -1), so
the out-of-bounds flag is set even on the row `"a"`; it is not set on an
empty row (the loop body never runs); and the function-name rule's
backward walk on the row `"f("` runs past index 0 without finding a
space. -/
theorem c10_code_evaluation :
    rowOob cProfile ("a".toList) false = true ∧
    rowOob cProfile ([] : List Char) false = false ∧
    (funcMark ("f(".toList) [HL_NORMAL, HL_NORMAL] 0).2 = true := by decide

/-! Lemmas for the serialize/load round trip. -/

lemma splitLinesAux_append_newline (t : List Char) :
    ∀ (r acc : List Char), '\n' ∉ r →
      splitLinesAux acc (r ++ '\n' :: t)
        = (acc.reverse ++ r ++ ['\n']) :: splitLinesAux [] t := by
  intro r
  induction r with
  | nil =>
    intro acc _
    simp [splitLinesAux]
  | cons c r' ih =>
    intro acc hmem
    have hc : ¬(c == '\n') = true := by
      simp only [beq_iff_eq]
      intro hcn
      exact hmem (hcn ▸ List.mem_cons_self c r')
    simp only [List.cons_append, splitLinesAux, if_neg hc, List.append_eq]
    rw [ih (c :: acc) (fun hx => hmem (List.mem_cons_of_mem c hx))]
    simp

lemma stripTrailing_append_newline (r : List Char) (h1 : '\n' ∉ r)
    (h2 : r.getLast? ≠ some '\r') : stripTrailing (r ++ ['\n']) = r := by
  unfold stripTrailing
  rw [List.reverse_append]
  simp only [List.reverse_cons, List.reverse_nil, List.nil_append, List.singleton_append]
  rw [List.dropWhile_cons]
  simp only [if_pos (by decide : (('\n' == '\n' || '\n' == '\r')) = true)]
  have hdw : r.reverse.dropWhile (fun c => c == '\n' || c == '\r') = r.reverse := by
    rcases hrev : r.reverse with _ | ⟨c, tl⟩
    · rfl
    · have hlast : r.getLast? = some c := by
        rw [← List.head?_reverse, hrev]
        rfl
      have hcr : c ≠ '\r' := fun hc => h2 (hc ▸ hlast)
      have hcn : c ≠ '\n' := by
        intro hc
        apply h1
        have : c ∈ r.reverse := by rw [hrev]; exact List.mem_cons_self c tl
        exact hc ▸ (List.mem_reverse.mp this)
      rw [List.dropWhile_cons]
      rw [if_neg (by simp [hcn, hcr])]
  rw [hdw, List.reverse_reverse]

/-- C4 fails as stated: a row consisting of a single carriage return
serializes to `"\r\n"`, and loading that strips both trailing bytes,
yielding an empty row instead of the original. -/
theorem c4_counterexample :
    editorOpenRows (editorRowsToString [['\r']]) = [([] : List Char)] ∧
      ([([] : List Char)] : List (List Char)) ≠ [['\r']] := by decide

/-- C4 amended: serialization followed by load is the identity on row
contents for every buffer whose rows contain no newline character and do
not end in a carriage return (load strips all trailing newline and
carriage-return bytes of each line, so such rows are changed by the round
trip). -/
theorem c4_amended_roundtrip (rows : List (List Char))
    (h : ∀ r ∈ rows, '\n' ∉ r ∧ r.getLast? ≠ some '\r') :
    editorOpenRows (editorRowsToString rows) = rows := by
  induction rows with
  | nil => rfl
  | cons r rs ih =>
    have hr := h r (List.mem_cons_self r rs)
    have hs : ∀ x ∈ rs, '\n' ∉ x ∧ x.getLast? ≠ some '\r' :=
      fun x hx => h x (List.mem_cons_of_mem r hx)
    show (splitLines (r ++ '\n' :: editorRowsToString rs)).map stripTrailing = r :: rs
    unfold splitLines
    rw [splitLinesAux_append_newline _ r [] hr.1]
    simp only [List.reverse_nil, List.nil_append, List.map_cons]
    rw [stripTrailing_append_newline r hr.1 hr.2]
    exact congrArg (r :: ·) (ih hs)

/-- Witness for C4 at a concrete two-row buffer. -/
theorem c4_amended_roundtrip_witness :
    (∀ r ∈ [['a', 'b'], ([] : List Char)], '\n' ∉ r ∧ r.getLast? ≠ some '\r') ∧
      editorOpenRows (editorRowsToString [['a', 'b'], []]) = [['a', 'b'], []] :=
  ⟨by decide, c4_amended_roundtrip [['a', 'b'], []] (by decide)⟩

/-- C5: find treats the buffer as circular.  For rendered rows
`["foo", "bar", "foo"]` and query `"foo"`, a forward search anchored at
row 2 returns row 0; and in general the scan's index update steps to
`(cur + 1) mod n` going forward and to `(cur - 1 + n) mod n` going
backward, wrapping at both ends. -/
theorem c5_find_wraps (n cur : Int) (h0 : 0 ≤ cur) (h1 : cur < n) :
    editorFindNext ["foo".toList, "bar".toList, "foo".toList] ("foo".toList) 2 1 = some 0 ∧
    findStep n cur 1 = (cur + 1) % n ∧
    findStep n cur (-1) = (cur - 1 + n) % n := by
  refine ⟨by decide, ?_, ?_⟩
  · simp only [findStep]
    by_cases hc : cur + 1 = n
    · rw [if_neg (by omega), if_pos hc, hc, Int.emod_self]
    · rw [if_neg (by omega), if_neg hc, Int.emod_eq_of_lt (by omega) (by omega)]
  · simp only [findStep]
    have hm : cur + -1 = cur - 1 := by ring
    rw [hm]
    by_cases hc : cur - 1 = -1
    · rw [if_pos hc]
      have hcur : cur = 0 := by omega
      subst hcur
      have harith : (0 : Int) - 1 + n = n - 1 := by ring
      rw [harith, Int.emod_eq_of_lt (by omega) (by omega)]
    · rw [if_neg hc, if_neg (by omega)]
      have harith : cur - 1 + n = cur - 1 + n * 1 := by ring
      rw [harith, Int.add_mul_emod_self_left, Int.emod_eq_of_lt (by omega) (by omega)]

/-- Witness for C5 at `n = 3`, `cur = 2`. -/
theorem c5_find_wraps_witness :
    ((0 : Int) ≤ 2 ∧ (2 : Int) < 3) ∧
      (editorFindNext ["foo".toList, "bar".toList, "foo".toList] ("foo".toList) 2 1
          = some 0 ∧
        findStep 3 2 1 = ((2 : Int) + 1) % 3 ∧
        findStep 3 2 (-1) = ((2 : Int) - 1 + 3) % 3) :=
  ⟨⟨by decide, by decide⟩, c5_find_wraps 3 2 (by decide) (by decide)⟩

/-- Each step of the `editorRowCxToRx` fold never decreases the running
rendered column. -/
lemma cxToRx_foldl_ge (t : Nat) :
    ∀ (l : List Char) (init : Nat),
      init ≤ l.foldl
        (fun rx c => if c == '\t' then rx + ((t - 1) - rx % t) + 1 else rx + 1) init := by
  intro l
  induction l with
  | nil => intro init; simp
  | cons c cs ih =>
    intro init
    have hstep : init ≤ (if c == '\t' then init + ((t - 1) - init % t) + 1 else init + 1) := by
      split <;> omega
    exact le_trans hstep (ih _)

/-- C8: `editorRowCxToRx` is monotone non-decreasing in the raw index, for
raw indices within the row and a positive tab stop. -/
theorem c8_cx_to_rx_monotone (t : Nat) (chars : List Char) (cx1 cx2 : Nat)
    (ht : 0 < t) (h12 : cx1 ≤ cx2) (h2 : cx2 ≤ chars.length) :
    editorRowCxToRx t chars cx1 ≤ editorRowCxToRx t chars cx2 := by
  unfold editorRowCxToRx
  have hsum : cx1 + (cx2 - cx1) = cx2 := by omega
  rw [show chars.take cx2 = chars.take cx1 ++ (chars.drop cx1).take (cx2 - cx1) by
        rw [← List.take_add, hsum],
      List.foldl_append]
  exact cxToRx_foldl_ge t _ _

/-- Witness for C8 at tab stop 4, row `"a\tb"`, indices 1 and 3. -/
theorem c8_cx_to_rx_monotone_witness :
    (0 < 4 ∧ 1 ≤ 3 ∧ 3 ≤ ("a\tb".toList).length) ∧
      editorRowCxToRx 4 ("a\tb".toList) 1 ≤ editorRowCxToRx 4 ("a\tb".toList) 3 :=
  ⟨⟨by decide, by decide, by decide⟩,
    c8_cx_to_rx_monotone 4 ("a\tb".toList) 1 3 (by decide) (by decide) (by decide)⟩

/-- C9: for every input byte sequence beginning with 0x1b, the key decoder
always yields a valid key event (never an error outcome), and whenever the
bytes after the escape are not one of the recognized sequences (missing
follow-up byte, unrecognized intermediate byte, a digit sequence not
terminated by a tilde, or an unmapped digit), it yields the plain escape
key 27. -/
theorem c9_escape_never_errors (rest : List Nat) :
    editorReadKey 27 rest ∈
      [27, ARROW_LEFT, ARROW_RIGHT, ARROW_UP, ARROW_DOWN, DEL_KEY, HOME_KEY,
        END_KEY, PAGE_UP, PAGE_DOWN] ∧
    (recognizedEsc rest = false → editorReadKey 27 rest = 27) := by
  have hek : editorReadKey 27 rest = editorReadKeyEsc rest := rfl
  rw [hek]
  rcases rest with _ | ⟨s0, _ | ⟨s1, _ | ⟨s2, r⟩⟩⟩
  · exact ⟨by simp [editorReadKeyEsc], fun _ => rfl⟩
  · exact ⟨by simp [editorReadKeyEsc], fun _ => rfl⟩
  · constructor
    · simp only [editorReadKeyEsc]
      split_ifs <;>
        simp [ARROW_LEFT, ARROW_RIGHT, ARROW_UP, ARROW_DOWN, DEL_KEY, HOME_KEY,
          END_KEY, PAGE_UP, PAGE_DOWN]
    · intro hrec
      simp only [recognizedEsc] at hrec
      simp only [editorReadKeyEsc]
      split_ifs at hrec ⊢ <;> simp_all
  · constructor
    · simp only [editorReadKeyEsc]
      split_ifs <;>
        simp [ARROW_LEFT, ARROW_RIGHT, ARROW_UP, ARROW_DOWN, DEL_KEY, HOME_KEY,
          END_KEY, PAGE_UP, PAGE_DOWN]
    · intro hrec
      simp only [recognizedEsc] at hrec
      simp only [editorReadKeyEsc]
      split_ifs at hrec ⊢ <;> simp_all

/-- Witness for C9: the unrecognized sequence `ESC [ Z` decodes to plain
escape. -/
theorem c9_escape_never_errors_witness :
    recognizedEsc [91, 90] = false ∧ editorReadKey 27 [91, 90] = 27 :=
  ⟨by decide, (c9_escape_never_errors [91, 90]).2 (by decide)⟩

/-! Lemmas for the row-store operations (C6, C7). -/

lemma kGetD_append_self (l l' : List α) (d : α) (j : Nat) (h : l.length = j) :
    (l ++ l').getD j d = l'.getD 0 d := by
  rw [kGetD_append_ge l l' d j (le_of_eq h), h, Nat.sub_self]

lemma renderOf_foldl_len (t : Nat) (ht : 0 < t) :
    ∀ (l acc : List Char),
      acc.length + l.length ≤
        (l.foldl
          (fun acc c =>
            if c == '\t' then acc ++ List.replicate (t - acc.length % t) ' '
            else acc ++ [c]) acc).length := by
  intro l
  induction l with
  | nil => intro acc; simp
  | cons c cs ih =>
    intro acc
    simp only [List.foldl_cons, List.length_cons]
    have hmod : acc.length % t < t := Nat.mod_lt _ ht
    have hstep : acc.length + 1 ≤
        ((if c == '\t' then acc ++ List.replicate (t - acc.length % t) ' '
          else acc ++ [c])).length := by
      split <;> (simp [List.length_append]; try omega)
    have hrec := ih (if c == '\t' then acc ++ List.replicate (t - acc.length % t) ' '
      else acc ++ [c])
    omega

lemma renderOf_length_ge (t : Nat) (ht : 0 < t) (chars : List Char) :
    chars.length ≤ (renderOf t chars).length := by
  have h := renderOf_foldl_len t ht chars []
  simpa [renderOf] using h

lemma cascadeFrom_cons_head (syn : SyntaxProfile) (x : ERow) (xs : List ERow) (s : Bool)
    (d : ERow) :
    (cascadeFrom syn (x :: xs) s).getD 0 d
      = { x with hl := rowHl syn x.render s, hl_open_comment := rowFlag syn x.render s } := by
  simp only [cascadeFrom]
  split <;> rfl

lemma updateRowAt_getD_self (synO : Option SyntaxProfile) (t : Nat) (rows : List ERow)
    (j : Nat) (hj : j < rows.length) :
    ((updateRowAt synO t rows j).getD j default).chars = (rows.getD j default).chars ∧
    ((updateRowAt synO t rows j).getD j default).render
      = renderOf t ((rows.getD j default).chars) := by
  rcases hd : rows.drop j with _ | ⟨r, rest⟩
  · exfalso
    have hlen := congrArg List.length hd
    simp [List.length_drop] at hlen
    omega
  · have hr : rows.getD j default = r := by
      have hgd := kGetD_drop rows default j 0
      rw [hd] at hgd
      simpa using hgd.symm
    have hlen_take : (rows.take j).length = j := by
      simp [List.length_take]
      omega
    have hrows1 : listModify rows j (fun x => { x with render := renderOf t x.chars })
        = rows.take j ++ ({ r with render := renderOf t r.chars } : ERow) :: rest :=
      kListModify_of_drop _ _ _ hd
    have hdrop1 : (rows.take j ++ ({ r with render := renderOf t r.chars } : ERow) :: rest).drop j
        = ({ r with render := renderOf t r.chars } : ERow) :: rest := List.drop_left' hlen_take
    have htake1 : (rows.take j ++ ({ r with render := renderOf t r.chars } : ERow) :: rest).take j
        = rows.take j := List.take_left' hlen_take
    cases synO with
    | none =>
      simp only [updateRowAt, hrows1]
      rw [kListModify_of_drop _ _ _ hdrop1]
      rw [htake1]
      constructor
      · rw [kGetD_append_self _ _ _ _ hlen_take, hr]
        rfl
      · rw [kGetD_append_self _ _ _ _ hlen_take, hr]
        rfl
    | some syn =>
      simp only [updateRowAt, hrows1, updateSyntaxFrom, hdrop1, htake1]
      constructor
      · rw [kGetD_append_self _ _ _ _ hlen_take]
        rw [cascadeFrom_cons_head, hr]
      · rw [kGetD_append_self _ _ _ _ hlen_take]
        rw [cascadeFrom_cons_head, hr]

lemma cascadeFrom_getD_idx (syn : SyntaxProfile) :
    ∀ (l : List ERow) (s : Bool) (k : Nat) (d : ERow),
      ((cascadeFrom syn l s).getD k d).idx = (l.getD k d).idx := by
  intro l
  induction l with
  | nil => intro s k d; rfl
  | cons x xs ih =>
    intro s k d
    simp only [cascadeFrom]
    split
    · cases k with
      | zero => simp
      | succ m => simp
    · cases k with
      | zero => simp
      | succ m => simpa [List.getD_cons_succ] using ih _ m d

lemma kListModify_getD_idx (l : List ERow) (j k : Nat) (f : ERow → ERow)
    (hf : ∀ r, (f r).idx = r.idx) (d : ERow) :
    ((listModify l j f).getD k d).idx = (l.getD k d).idx := by
  rcases hd : l.drop j with _ | ⟨r, rest⟩
  · rw [kListModify_of_drop_nil _ _ _ hd]
  · have hj : j < l.length := by
      have hlen := congrArg List.length hd
      simp [List.length_drop] at hlen
      omega
    have hlen_take : (l.take j).length = j := by
      simp [List.length_take]
      omega
    rw [kListModify_of_drop _ _ _ hd]
    rcases lt_trichotomy k j with hk | hk | hk
    · rw [kGetD_append_lt _ _ _ _ (by omega), kGetD_take _ _ _ _ hk]
    · subst hk
      rw [kGetD_append_self _ _ _ _ hlen_take]
      have hr : l.getD k d = r := by
        have hgd := kGetD_drop l d k 0
        rw [hd] at hgd
        simpa using hgd.symm
      rw [hr]
      exact hf r
    · rw [kGetD_append_ge _ _ _ _ (by omega), hlen_take]
      have h2 := kGetD_drop l d j (k - j)
      rw [hd] at h2
      have h3 : j + (k - j) = k := by omega
      rw [h3] at h2
      rw [← h2]
      rcases Nat.exists_eq_add_of_lt hk with ⟨m, hm⟩
      have h4 : k - j = m + 1 := by omega
      rw [h4]
      simp [List.getD_cons_succ]

lemma updateSyntaxFrom_getD_idx (syn : SyntaxProfile) (rows : List ERow) (j : Nat)
    (hj : j ≤ rows.length) (k : Nat) (d : ERow) :
    ((updateSyntaxFrom syn rows j).getD k d).idx = (rows.getD k d).idx := by
  unfold updateSyntaxFrom
  have hlen_take : (rows.take j).length = j := by
    simp [List.length_take]
    omega
  by_cases hk : k < j
  · rw [kGetD_append_lt _ _ _ _ (by omega), kGetD_take _ _ _ _ hk]
  · push_neg at hk
    rw [kGetD_append_ge _ _ _ _ (by omega), hlen_take, cascadeFrom_getD_idx, kGetD_drop]
    have h3 : j + (k - j) = k := by omega
    rw [h3]

lemma updateRowAt_getD_idx (synO : Option SyntaxProfile) (t : Nat) (rows : List ERow)
    (j : Nat) (hj : j ≤ rows.length) (k : Nat) (d : ERow) :
    ((updateRowAt synO t rows j).getD k d).idx = (rows.getD k d).idx := by
  cases synO with
  | none =>
    simp only [updateRowAt]
    rw [kListModify_getD_idx _ j k
        (fun r => { r with hl := List.replicate r.render.length HL_NORMAL })
        (fun r => rfl) d,
      kListModify_getD_idx _ j k (fun r => { r with render := renderOf t r.chars })
        (fun r => rfl) d]
  | some syn =>
    simp only [updateRowAt]
    rw [updateSyntaxFrom_getD_idx syn _ j (by rw [kListModify_length]; exact hj),
      kListModify_getD_idx _ j k (fun r => { r with render := renderOf t r.chars })
        (fun r => rfl) d]

lemma updateSyntaxFrom_length (syn : SyntaxProfile) (rows : List ERow) (j : Nat) :
    (updateSyntaxFrom syn rows j).length = rows.length := by
  unfold updateSyntaxFrom
  simp [List.length_append, cascadeFrom_length, List.length_take, List.length_drop]
  omega

lemma updateRowAt_length (synO : Option SyntaxProfile) (t : Nat) (rows : List ERow) (j : Nat) :
    (updateRowAt synO t rows j).length = rows.length := by
  cases synO with
  | none =>
    simp only [updateRowAt]
    rw [kListModify_length, kListModify_length]
  | some syn =>
    simp only [updateRowAt]
    rw [updateSyntaxFrom_length, kListModify_length]

/-- C6 fails as stated: kilo.c clamps an out-of-range `at` to `row->rsize`
(not to `min(max(at,0), size)`), so inserting at `at = -1` into `"ab"`
(no tabs, `rsize = size = 2`) appends at the end: the result is `"abX"`,
and the inserted character does not sit at the claimed clamped position
`min(max(-1,0), 2) = 0`. -/
theorem c6_counterexample :
    rowInsertCharChars 4 ['a', 'b'] (-1) 'X' = some ['a', 'b', 'X'] ∧
    min (max (-1 : Int) 0) 2 = 0 ∧
    ['a', 'b', 'X'].getD 0 ' ' ≠ 'X' := by decide

/-- C6 amended: for `0 ≤ at ≤ size` (where kilo.c performs no clamping,
since `size ≤ rsize`), `insert_char` succeeds and inserts the character at
position `at`: the raw content becomes `take at ++ c :: drop at` (length
`size + 1`, `c` at position `at`, all other characters preserved in
order), the row's render is re-derived from the new raw content, and the
dirty counter is incremented.  Out-of-range `at` is clamped to `rsize`
instead of the claimed formula (see the counterexample), which for a row
with tabs (`rsize > size`) makes the `memmove` byte count underflow. -/
theorem c6_amended_insert_char (st : EState) (j : Nat) (a : Int) (c : Char)
    (ht : 0 < st.tab_stop) (hj : j < st.rows.length) (h0 : 0 ≤ a)
    (hs : a ≤ ((st.rows.getD j default).chars.length : Int)) :
    ∃ st', editorRowInsertChar st j a c = some st' ∧
      (st'.rows.getD j default).chars
        = (st.rows.getD j default).chars.take a.toNat
          ++ c :: (st.rows.getD j default).chars.drop a.toNat ∧
      (st'.rows.getD j default).chars.length
        = (st.rows.getD j default).chars.length + 1 ∧
      (st'.rows.getD j default).chars.getD a.toNat ' ' = c ∧
      (st'.rows.getD j default).render
        = renderOf st.tab_stop ((st'.rows.getD j default).chars) ∧
      st'.dirty = st.dirty + 1 := by
  have hna : a.toNat ≤ (st.rows.getD j default).chars.length := by omega
  have hrg : (st.rows.getD j default).chars.length
      ≤ (renderOf st.tab_stop ((st.rows.getD j default).chars)).length :=
    renderOf_length_ge st.tab_stop ht _
  have hcc : rowInsertCharChars st.tab_stop ((st.rows.getD j default).chars) a c
      = some ((st.rows.getD j default).chars.take a.toNat
          ++ c :: (st.rows.getD j default).chars.drop a.toNat) := by
    simp only [rowInsertCharChars]
    have hcast : ((st.rows.getD j default).chars.length : Int)
        ≤ ((renderOf st.tab_stop ((st.rows.getD j default).chars)).length : Int) := by
      exact_mod_cast hrg
    have hc1 : ¬(a < 0 ∨ a > ((renderOf st.tab_stop ((st.rows.getD j default).chars)).length : Int)) := by
      push_neg
      exact ⟨h0, le_trans hs hcast⟩
    rw [if_neg hc1]
    rw [if_pos hs]
  have hop : editorRowInsertChar st j a c
      = some { st with
               rows := updateRowAt st.profile st.tab_stop
                 (listModify st.rows j
                   (fun r => { r with chars :=
                     (st.rows.getD j default).chars.take a.toNat
                       ++ c :: (st.rows.getD j default).chars.drop a.toNat })) j
               dirty := st.dirty + 1 } := by
    simp only [editorRowInsertChar, hcc]
  -- position j of the modified list holds the new raw content
  rcases hd : st.rows.drop j with _ | ⟨r, rest⟩
  · exfalso
    have hlen := congrArg List.length hd
    simp [List.length_drop] at hlen
    omega
  · have hlen_take : (st.rows.take j).length = j := by
      simp [List.length_take]
      omega
    have hrj : st.rows.getD j default = r := by
      have hgd := kGetD_drop st.rows default j 0
      rw [hd] at hgd
      simpa using hgd.symm
    have hrowsM : listModify st.rows j
        (fun x => { x with chars :=
          (st.rows.getD j default).chars.take a.toNat
            ++ c :: (st.rows.getD j default).chars.drop a.toNat })
        = st.rows.take j
          ++ ({ r with chars :=
              (st.rows.getD j default).chars.take a.toNat
                ++ c :: (st.rows.getD j default).chars.drop a.toNat } : ERow) :: rest :=
      kListModify_of_drop _ _ _ hd
    have hlenM : (st.rows.take j
        ++ ({ r with chars :=
            (st.rows.getD j default).chars.take a.toNat
              ++ c :: (st.rows.getD j default).chars.drop a.toNat } : ERow) :: rest).length
        = st.rows.length := by
      have := congrArg List.length hd
      simp [List.length_drop] at this
      simp [List.length_append, List.length_take]
      omega
    have hchars : ((st.rows.take j
        ++ ({ r with chars :=
            (st.rows.getD j default).chars.take a.toNat
              ++ c :: (st.rows.getD j default).chars.drop a.toNat } : ERow) :: rest).getD j
          default).chars
        = (st.rows.getD j default).chars.take a.toNat
            ++ c :: (st.rows.getD j default).chars.drop a.toNat := by
      rw [kGetD_append_self _ _ _ _ hlen_take]
      rfl
    have hself := updateRowAt_getD_self st.profile st.tab_stop
      (st.rows.take j
        ++ ({ r with chars :=
            (st.rows.getD j default).chars.take a.toNat
              ++ c :: (st.rows.getD j default).chars.drop a.toNat } : ERow) :: rest) j
      (by rw [hlenM]; exact hj)
    refine ⟨_, hop, ?_, ?_, ?_, ?_, rfl⟩
    · show ((updateRowAt st.profile st.tab_stop _ j).getD j default).chars = _
      rw [hrowsM, hself.1, hchars]
    · show ((updateRowAt st.profile st.tab_stop _ j).getD j default).chars.length = _
      rw [hrowsM, hself.1, hchars]
      simp [List.length_append, List.length_take]
      omega
    · show ((updateRowAt st.profile st.tab_stop _ j).getD j default).chars.getD a.toNat ' ' = c
      rw [hrowsM, hself.1, hchars]
      rw [kGetD_append_self _ _ _ _ (by rw [List.length_take]; omega)]
      rfl
    · show ((updateRowAt st.profile st.tab_stop _ j).getD j default).render
        = renderOf st.tab_stop ((updateRowAt st.profile st.tab_stop _ j).getD j default).chars
      rw [hrowsM, hself.1, hself.2, hchars]

/-- Witness for C6: inserting `'X'` at position 1 of the row `"ab"`. -/
theorem c6_amended_insert_char_witness :
    (0 < demoState1.tab_stop ∧ 0 < demoState1.rows.length ∧ (0 : Int) ≤ 1 ∧
      (1 : Int) ≤ ((demoState1.rows.getD 0 default).chars.length : Int)) ∧
      (∃ st', editorRowInsertChar demoState1 0 1 'X' = some st' ∧
        (st'.rows.getD 0 default).chars
          = (demoState1.rows.getD 0 default).chars.take (1 : Int).toNat
            ++ 'X' :: (demoState1.rows.getD 0 default).chars.drop (1 : Int).toNat ∧
        (st'.rows.getD 0 default).chars.length
          = (demoState1.rows.getD 0 default).chars.length + 1 ∧
        (st'.rows.getD 0 default).chars.getD (1 : Int).toNat ' ' = 'X' ∧
        (st'.rows.getD 0 default).render
          = renderOf demoState1.tab_stop ((st'.rows.getD 0 default).chars) ∧
        st'.dirty = demoState1.dirty + 1) :=
  ⟨⟨by decide, by decide, by decide, by decide⟩,
    c6_amended_insert_char demoState1 0 1 'X' (by decide) (by decide) (by decide) (by decide)⟩

/-- C7 fails as stated: `editorInsertRow` returns without inserting when
`at` is out of range (`if (at < 0 || at > E.numrows) return;`), it does
not clamp.  Inserting at position 5 into a one-row buffer leaves the
buffer unchanged with 1 row, not the claimed `len + 1 = 2` rows. -/
theorem c7_counterexample :
    editorInsertRow false demoState1 5 ['b'] = demoState1 ∧
      demoState1.rows.length = 1 ∧ demoState1.rows.length + 1 ≠ 1 := by decide

/-- C7 amended: out-of-range `at` is a no-op (not a clamp; see the
counterexample).  For `0 ≤ at ≤ len`, and a buffer whose rows are
correctly indexed, `insert_row(at, text)` yields `len + 1` rows, the new
row holding `text` sits at position `at`, and every row's `idx` field
again equals its offset in the sequence.  This holds for every value `g`
of the new row's `hl_open_comment` field, which kilo.c leaves
uninitialized. -/
theorem c7_amended_insert_row (g : Bool) (st : EState) (a : Int) (s : List Char)
    (hidx : ∀ k, k < st.rows.length → (st.rows.getD k default).idx = k)
    (h0 : 0 ≤ a) (h1 : a ≤ (st.rows.length : Int)) :
    (editorInsertRow g st a s).rows.length = st.rows.length + 1 ∧
    (∀ k, k < st.rows.length + 1 →
      ((editorInsertRow g st a s).rows.getD k default).idx = k) ∧
    ((editorInsertRow g st a s).rows.getD a.toNat default).chars = s := by
  have hcond : ¬(a < 0 ∨ a > (st.rows.length : Int)) := by omega
  have hnle : a.toNat ≤ st.rows.length := by omega
  have hlen_take : (st.rows.take a.toNat).length = a.toNat := by
    simp [List.length_take]
    omega
  have hlenP : (st.rows.take a.toNat
      ++ [({ idx := a.toNat, chars := s, render := [], hl := [],
             hl_open_comment := g } : ERow)]).length = a.toNat + 1 := by
    simp [List.length_append]
    omega
  have hassoc : st.rows.take a.toNat
      ++ ({ idx := a.toNat, chars := s, render := [], hl := [],
            hl_open_comment := g } : ERow) :: st.rows.drop a.toNat
      = (st.rows.take a.toNat
          ++ [({ idx := a.toNat, chars := s, render := [], hl := [],
                 hl_open_comment := g } : ERow)]) ++ st.rows.drop a.toNat := by
    simp
  have htake : (st.rows.take a.toNat
      ++ ({ idx := a.toNat, chars := s, render := [], hl := [],
            hl_open_comment := g } : ERow) :: st.rows.drop a.toNat).take (a.toNat + 1)
      = st.rows.take a.toNat
        ++ [({ idx := a.toNat, chars := s, render := [], hl := [],
               hl_open_comment := g } : ERow)] := by
    rw [hassoc]
    exact List.take_left' hlenP
  have hdrop : (st.rows.take a.toNat
      ++ ({ idx := a.toNat, chars := s, render := [], hl := [],
            hl_open_comment := g } : ERow) :: st.rows.drop a.toNat).drop (a.toNat + 1)
      = st.rows.drop a.toNat := by
    rw [hassoc]
    exact List.drop_left' hlenP
  have hrows : (editorInsertRow g st a s).rows
      = updateRowAt st.profile st.tab_stop
          ((st.rows.take a.toNat
            ++ [({ idx := a.toNat, chars := s, render := [], hl := [],
                   hl_open_comment := g } : ERow)])
            ++ (st.rows.drop a.toNat).map (fun r : ERow => { r with idx := r.idx + 1 }))
          a.toNat := by
    simp only [editorInsertRow, if_neg hcond, htake, hdrop]
  have hr2len : ((st.rows.take a.toNat
      ++ [({ idx := a.toNat, chars := s, render := [], hl := [],
             hl_open_comment := g } : ERow)])
      ++ (st.rows.drop a.toNat).map (fun r : ERow => { r with idx := r.idx + 1 })).length
      = st.rows.length + 1 := by
    simp [List.length_append, List.length_map, List.length_drop]
    omega
  refine ⟨?_, ?_, ?_⟩
  · rw [hrows, updateRowAt_length, hr2len]
  · intro k hk
    rw [hrows, updateRowAt_getD_idx _ _ _ _ (by omega) k default]
    rcases lt_trichotomy k a.toNat with hka | hka | hka
    · rw [kGetD_append_lt _ _ _ _ (by omega), kGetD_append_lt _ _ _ _ (by omega),
        kGetD_take _ _ _ _ hka]
      exact hidx k (by omega)
    · subst hka
      rw [kGetD_append_lt _ _ _ _ (by omega), kGetD_append_self _ _ _ _ hlen_take]
      rfl
    · rw [kGetD_append_ge _ _ _ _ (by omega), hlenP]
      have hmlt : k - (a.toNat + 1) < (st.rows.drop a.toNat).length := by
        simp [List.length_drop]
        omega
      have hmap := kGetD_map ((fun r => { r with idx := r.idx + 1 }) : ERow → ERow)
        default default (st.rows.drop a.toNat) (k - (a.toNat + 1)) hmlt
      rw [hmap]
      show ((st.rows.drop a.toNat).getD (k - (a.toNat + 1)) default).idx + 1 = k
      rw [kGetD_drop]
      have h3 : a.toNat + (k - (a.toNat + 1)) = k - 1 := by omega
      rw [h3]
      have := hidx (k - 1) (by omega)
      omega
  · rw [hrows]
    have hself := updateRowAt_getD_self st.profile st.tab_stop _ a.toNat
      (by rw [hr2len]; omega)
    rw [hself.1]
    rw [kGetD_append_lt _ _ _ _ (by omega), kGetD_append_self _ _ _ _ hlen_take]
    rfl

/-- Witness for C7: inserting a row at the end (position 1) of a one-row
buffer. -/
theorem c7_amended_insert_row_witness :
    ((∀ k, k < demoState1.rows.length → (demoState1.rows.getD k default).idx = k) ∧
      (0 : Int) ≤ 1 ∧ (1 : Int) ≤ (demoState1.rows.length : Int)) ∧
      ((editorInsertRow false demoState1 1 ['c']).rows.length
          = demoState1.rows.length + 1 ∧
        (∀ k, k < demoState1.rows.length + 1 →
          ((editorInsertRow false demoState1 1 ['c']).rows.getD k default).idx = k) ∧
        ((editorInsertRow false demoState1 1 ['c']).rows.getD (1 : Int).toNat
            default).chars = ['c']) :=
  ⟨⟨by decide, by decide, by decide⟩,
    c7_amended_insert_row false demoState1 1 ['c'] (by decide) (by decide) (by decide)⟩

end Kilo
